import Mathlib

/-!
Verification of the spsdk `elftosb` / PFR subset: a shallow embedding of
`src/spsdk/apps/elftosb.py` and `src/spsdk/pfr/pfr.py` together with proofs
about the embedded operations.

Bytes are modelled as `List Nat` (each entry one byte); Python `bytes`
concatenation is list append; Python big-endian `int.to_bytes` is `toBytesBE`.
External crypto primitives (hashing, ECC sign/verify), which the repository
consumes through a backend interface, are abstracted as function parameters.
-/

namespace Spsdk

/-- Byte strings are lists of naturals (one entry per byte). -/
abbrev Bytes := List Nat

/-- Helper for `bitLength`: counts halving steps until zero; the first argument
is fuel, sufficient whenever it is at least the value. -/
def bitLengthAux : Nat → Nat → Nat
  | _, 0 => 0
  | 0, _ + 1 => 0
  | fuel + 1, x + 1 => bitLengthAux fuel ((x + 1) / 2) + 1

/-- Python's `int.bit_length()`: number of bits needed to represent `x`, `0` for `0`. -/
def bitLength (x : Nat) : Nat := bitLengthAux x x

/-- Python's `math.ceil(x.bit_length() / 8)`: minimal byte count for `x`. -/
def byteLength (x : Nat) : Nat := (bitLength x + 7) / 8

/-- Python's `x.to_bytes(len, "big")`: big-endian encoding of `x` on `len` bytes. -/
def toBytesBE (x len : Nat) : Bytes :=
  (List.range len).map (fun i => x / 256 ^ (len - 1 - i) % 256)

/-- Python's `bytes.ljust(n, b"\x00")`: pad with trailing zero bytes up to length `n`
(returns the input unchanged when it is already at least `n` bytes long). -/
def ljustZero (l : Bytes) (n : Nat) : Bytes := l ++ List.replicate (n - l.length) 0

/-- Python slice read `data[a:b]` for non-negative indices. -/
def getSlice (data : Bytes) (a b : Nat) : Bytes := (data.drop a).take (b - a)

/-- Python slice assignment `data[a:b] = val` for non-negative indices: the elements of
the (clamped) range `[a, max a b)` are replaced by `val`; the list length changes when
the replaced range and `val` have different lengths. -/
def setSlice (data : Bytes) (a b : Nat) (val : Bytes) : Bytes :=
  data.take (min a data.length) ++ val ++ data.drop (min (max a b) data.length)

/-! ## elftosb._get_master_boot_image_type (claim C10) -/

/-- Image-type enumeration from `spsdk.image.MasterBootImageType` as used by
`_get_master_boot_image_type` in `elftosb.py`. -/
inductive MasterBootImageType where
  | CRC_RAM_IMAGE
  | CRC_XIP_IMAGE
  | SIGNED_XIP_IMAGE
  | SIGNED_XIP_NXP_IMAGE
  deriving DecidableEq, Repr

/-- Python `str(bool)` as interpolated by an f-string. -/
def boolStr (b : Bool) : String := if b then "True" else "False"

/-- The `sb3_image_types` dictionary literal of `_get_master_boot_image_type`
(`elftosb.py` lines 70-75), keyed exactly as in the source. -/
def sb3_image_types : List (String × MasterBootImageType) :=
  [ ("crc-ram-False", MasterBootImageType.CRC_RAM_IMAGE),
    ("crc-xip-False", MasterBootImageType.CRC_XIP_IMAGE),
    ("signed-xip-False", MasterBootImageType.SIGNED_XIP_IMAGE),
    ("signed-xip-True", MasterBootImageType.SIGNED_XIP_NXP_IMAGE) ]

/-- Embedding of `_get_master_boot_image_type`: build the key
`f"{auth}-{target}-{use_isk}"` and look it up in `sb3_image_types`; a Python
`KeyError` on a missing key is modelled by `none`. -/
def get_master_boot_image_type (auth target : String) (use_isk : Bool) :
    Option MasterBootImageType :=
  sb3_image_types.lookup (auth ++ "-" ++ target ++ "-" ++ boolStr use_isk)

/-! ## elftosb.generate_secure_binary_21: version/build defaulting (claim C9) -/

/-- Version-related options of a parsed BD file, as consumed by
`generate_secure_binary_21`: `none` models an absent key (Python `dict.get`
default applies), `some v` an explicitly present value. -/
structure BDOptions where
  productVersion : Option String
  componentVersion : Option String
  buildNumber : Option Int
  deriving DecidableEq, Repr

/-- Result of the version/build-number resolution in `generate_secure_binary_21`,
including the warnings echoed to the user. -/
structure ResolvedVersions where
  productVersion : String
  componentVersion : String
  buildNumber : Int
  warnings : List String
  deriving DecidableEq, Repr

/-- Embedding of `generate_secure_binary_21` lines 212-226: fetch the three
options with defaults `""`, `""`, `-1`, then substitute `"1.0.0"`, `"1.0.0"`, `1`
(each with a warning) when the fetched value is falsy / equal to `-1`.
The warning strings are verbatim from the source, including its misprinted
build-number default text. -/
def resolveVersionOptions (opts : BDOptions) : ResolvedVersions :=
  let product_version := opts.productVersion.getD ""
  let component_version := opts.componentVersion.getD ""
  let build_number := opts.buildNumber.getD (-1)
  let st1 :=
    if product_version = "" then
      ("1.0.0", ["warning: production version not defined, defaults to '1.0.0'"])
    else (product_version, [])
  let st2 :=
    if component_version = "" then
      ("1.0.0", ["warning: component version not defined, defaults to '1.0.0'"])
    else (component_version, [])
  let st3 :=
    if build_number = -1 then
      ((1 : Int), ["warning: build number not defined, defaults to '1.0.0'"])
    else (build_number, [])
  { productVersion := st1.1
    componentVersion := st2.1
    buildNumber := st3.1
    warnings := st1.2 ++ st2.2 ++ st3.2 }

/-! ## elftosb.generate_secure_binary_21: hash-of-hashes output path (claim C3) -/

/-- Embedding of `generate_secure_binary_21` lines 308-310.  When no explicit
path is given the source sets `hoh_out_path = os.getcwd()` and then evaluates
`os.path.join(hoh_out_path, "hash.bin")` WITHOUT using its result, so the
returned path is the working directory itself; the subsequent
`open(str(hoh_out_path), "wb")` therefore targets the directory. -/
def resolveHohOutPath (hoh_out_path : Option String) (cwd : String) : String :=
  match hoh_out_path with
  | some p => p
  | none =>
      let p := cwd
      let _unused := p ++ "/" ++ "hash.bin"
      p

/-- Path the documentation promises: the docstring of `generate_secure_binary_21`
(lines 169-170) states that with no path given, `hash.bin` is created under the
working directory. -/
def documentedHohOutPath (hoh_out_path : Option String) (cwd : String) : String :=
  match hoh_out_path with
  | some p => p
  | none => cwd ++ "/" ++ "hash.bin"

/-! ## pfr.calc_pub_key_hash (claim C2) -/

/-- Public numbers of an RSA public key (`e` exponent, `n` modulus). -/
structure RSAPublicNumbers where
  e : Nat
  n : Nat
  deriving DecidableEq, Repr

/-- Public numbers of an EC public key together with the curve's `key_size` in bits. -/
structure ECPublicNumbers where
  x : Nat
  y : Nat
  key_size : Nat
  deriving DecidableEq, Repr

/-- Public key as dispatched on by `calc_pub_key_hash` and `_calc_rotkh`. -/
inductive PublicKey where
  | rsa (nums : RSAPublicNumbers)
  | ec (nums : ECPublicNumbers)
  deriving DecidableEq, Repr

/-- Abstract hashing backend: `H w d` models `backend.hash(d, algorithm=f"sha{w}")`. -/
abbrev HashFn := Nat → Bytes → Bytes

/-- Embedding of `pfr.calc_pub_key_hash` (pfr.py lines 627-653): for RSA,
`n_1` is the exponent at its minimal byte length and `n_2` the modulus at its
minimal byte length; for EC, `n_1` is the Y coordinate and `n_2` the X
coordinate, both on `sha_width / 8` bytes; the digest is taken over
`n2_bytes + n1_bytes` (in that order, as in the source). -/
def calc_pub_key_hash (H : HashFn) (public_key : PublicKey) (sha_width : Nat) : Bytes :=
  match public_key with
  | PublicKey.rsa k =>
      let n_1 := k.e
      let n1_len := byteLength k.e
      let n_2 := k.n
      let n2_len := byteLength k.n
      H sha_width (toBytesBE n_2 n2_len ++ toBytesBE n_1 n1_len)
  | PublicKey.ec k =>
      let n_1 := k.y
      let n1_len := sha_width / 8
      let n_2 := k.x
      let n2_len := sha_width / 8
      H sha_width (toBytesBE n_2 n2_len ++ toBytesBE n_1 n1_len)

/-- Per-slot hash as worded by the claim C2 (spec section 4.2): RSA keys hash the
big-endian `(exponent, modulus)` concatenation in that order, EC keys the
big-endian `(Y, X)` concatenation in that order. -/
def pubKeyHashClaimed (H : HashFn) (public_key : PublicKey) (sha_width : Nat) : Bytes :=
  match public_key with
  | PublicKey.rsa k =>
      H sha_width (toBytesBE k.e (byteLength k.e) ++ toBytesBE k.n (byteLength k.n))
  | PublicKey.ec k =>
      H sha_width (toBytesBE k.y (sha_width / 8) ++ toBytesBE k.x (sha_width / 8))

/-- Amended per-slot hash: the source concatenates modulus before exponent
(RSA) and X before Y (EC). -/
def pubKeyHashAmended (H : HashFn) (public_key : PublicKey) (sha_width : Nat) : Bytes :=
  match public_key with
  | PublicKey.rsa k =>
      H sha_width (toBytesBE k.n (byteLength k.n) ++ toBytesBE k.e (byteLength k.e))
  | PublicKey.ec k =>
      H sha_width (toBytesBE k.x (sha_width / 8) ++ toBytesBE k.y (sha_width / 8))

/-- Degenerate but injective hash backend used to separate concatenation orders:
it returns its input data unchanged. -/
def idHash : HashFn := fun _ d => d

/-- Hash backend whose digest at width `w` is the input truncated/zero-padded to
`w / 8` bytes; used as a concrete stand-in satisfying the digest-length contract. -/
def truncHash : HashFn := fun w d => (d ++ List.replicate (w / 8) 0).take (w / 8)

/-! ## Theorems for claims C10, C9, C3, C2 -/

/-- Claim C10: the Master Boot Image type lookup returns a value exactly for the
four triples `crc-ram-False`, `crc-xip-False`, `signed-xip-False`,
`signed-xip-True`; every other combination of authentication type (`crc`,
`signed`), execution target (`ram`, `xip`) and use-ISK flag fails the
dictionary lookup (Python `KeyError`, modelled as `none`). -/
theorem C10_image_type_lookup :
    get_master_boot_image_type "crc" "ram" false = some MasterBootImageType.CRC_RAM_IMAGE
    ∧ get_master_boot_image_type "crc" "xip" false = some MasterBootImageType.CRC_XIP_IMAGE
    ∧ get_master_boot_image_type "signed" "xip" false = some MasterBootImageType.SIGNED_XIP_IMAGE
    ∧ get_master_boot_image_type "signed" "xip" true = some MasterBootImageType.SIGNED_XIP_NXP_IMAGE
    ∧ get_master_boot_image_type "crc" "ram" true = none
    ∧ get_master_boot_image_type "crc" "xip" true = none
    ∧ get_master_boot_image_type "signed" "ram" false = none
    ∧ get_master_boot_image_type "signed" "ram" true = none := by
  decide

/-- Claim C9: in `generate_secure_binary_21`, an explicitly supplied empty
`productVersion` or `componentVersion`, or an explicit `buildNumber` of `-1`,
is indistinguishable from the option being absent: the resolution function
yields identical results (defaults `"1.0.0"`, `"1.0.0"`, `1`, each with a
warning), so such explicit values are never carried into the container. -/
theorem C9_version_defaulting (o : BDOptions) :
    resolveVersionOptions { o with productVersion := some "" }
      = resolveVersionOptions { o with productVersion := none }
    ∧ resolveVersionOptions { o with componentVersion := some "" }
      = resolveVersionOptions { o with componentVersion := none }
    ∧ resolveVersionOptions { o with buildNumber := some (-1) }
      = resolveVersionOptions { o with buildNumber := none }
    ∧ (resolveVersionOptions ⟨some "", some "", some (-1)⟩).productVersion = "1.0.0"
    ∧ (resolveVersionOptions ⟨some "", some "", some (-1)⟩).componentVersion = "1.0.0"
    ∧ (resolveVersionOptions ⟨some "", some "", some (-1)⟩).buildNumber = 1
    ∧ (resolveVersionOptions ⟨some "", some "", some (-1)⟩).warnings.length = 3 := by
  obtain ⟨pv, cv, bn⟩ := o
  refine ⟨rfl, rfl, rfl, rfl, rfl, rfl, rfl⟩

/-- Claim C3 (code bug): called with `hoh_out_path = None`, the source resolves
the output path to the working directory itself — the `os.path.join` with
`"hash.bin"` is computed but discarded — so the ROTKH bytes are NOT written to
`hash.bin` under the working directory as the function's docstring promises
(the subsequent `open` of the directory path fails). -/
theorem C3_hoh_path_bug :
    resolveHohOutPath none "/work" = "/work"
    ∧ resolveHohOutPath none "/work" ≠ documentedHohOutPath none "/work"
    ∧ documentedHohOutPath none "/work" = "/work" ++ "/" ++ "hash.bin" := by
  refine ⟨rfl, ?_, rfl⟩
  decide

/-- Claim C2 counterexample: with the injective identity backend, the hash the
source computes differs from the hash over the claim's `(exponent, modulus)`
(resp. `(Y, X)`) concatenation order, both for an RSA key (e = 1, n = 2) and
for an EC key (x = 1, y = 2) at width 256. -/
theorem C2_counterexample :
    calc_pub_key_hash idHash (PublicKey.rsa ⟨1, 2⟩) 256
        ≠ pubKeyHashClaimed idHash (PublicKey.rsa ⟨1, 2⟩) 256
    ∧ calc_pub_key_hash idHash (PublicKey.ec ⟨1, 2, 256⟩) 256
        ≠ pubKeyHashClaimed idHash (PublicKey.ec ⟨1, 2, 256⟩) 256 := by
  constructor <;> decide

/-- Claim C2 amended: for every backend and key, the per-slot hash is computed
over the big-endian `(modulus, exponent)` concatenation in that order for an
RSA key, and over the big-endian `(X, Y)` concatenation in that order for an
EC key, hashed at the algorithm's digest width. -/
theorem C2_pub_key_hash_order (H : HashFn) (key : PublicKey) (w : Nat) :
    calc_pub_key_hash H key w = pubKeyHashAmended H key w := by
  cases key <;> rfl

/-! ## PFR register model (pfr.py BaseConfigArea)

The `Registers` / `RegsRegister` machinery lives in `spsdk/utils/registers.py`
and `spsdk/utils/misc.py`, which are not part of the sources here; those pieces
are modelled from the spec (section 4.4) as noted on each definition.  The
`BaseConfigArea` logic itself (`export`, `parse`, `_calc_rotkh`, `set_config`)
is embedded from `src/spsdk/pfr/pfr.py`. -/

/-- Sub-register of a grouped register (spec 4.4: registers may be split into
sub-register groups that are serialized individually). -/
structure SubRegister where
  name : String
  offset : Nat
  width : Nat
  reverse : Bool
  value : Bytes
  deriving DecidableEq, Repr

/-- Register of a PFR configuration area: byte offset, bit width, byte-order
reverse flag, current value bytes, the bit-field validation predicate consulted
by non-raw writes, and optional sub-register group. -/
structure PfrRegister where
  name : String
  offset : Nat
  width : Nat
  reverse : Bool
  value : Bytes
  valid : Bytes → Bool
  sub_regs : List SubRegister

/-- Modelled from the spec: `RegsRegister.set_value` (utils/registers.py, not
under src/).  A raw write stores the bytes directly, bypassing the register's
field validation; a non-raw write is rejected when validation fails. -/
def RegsRegister.set_value (r : PfrRegister) (v : Bytes) (raw : Bool) :
    Except String PfrRegister :=
  if raw || r.valid v then Except.ok { r with value := v }
  else Except.error "value does not fit the register fields"

/-- Modelled from the spec: `Registers.find_reg` (utils/registers.py, not under
src/) looks a register up by name; Python raises
`SPSDKRegsErrorRegisterNotFound` when it is absent, modelled here as `none`. -/
def findReg (regs : List PfrRegister) (name : String) : Option PfrRegister :=
  regs.find? (fun r => r.name = name)

/-- Replace the first register carrying `name` (the one `find_reg` returns and
Python mutates in place). -/
def replaceFirstReg (regs : List PfrRegister) (name : String) (r2 : PfrRegister) :
    List PfrRegister :=
  match regs with
  | [] => []
  | r :: rest =>
      if r.name = name then r2 :: rest else r :: replaceFirstReg rest name r2

/-- Modelled from the spec: `change_endianism` (utils/misc.py, not under src/).
Registers are serialized most-significant-byte-first one 4-byte word at a time
(the export loop comment reads "rewriting 4B at the time"), so the transform
reverses the byte order within each 4-byte word; a shorter leftover span is
reversed whole. -/
def change_endianism : Bytes → Bytes
  | a :: b :: c :: d :: rest => d :: c :: b :: a :: change_endianism rest
  | short => short.reverse

/-- Error surface of the embedded PFR operations, mirroring the Python
exception types raised by `pfr.py`. -/
inductive PfrErr where
  | rotkhIsNotPresent
  | registerNotFound
  | pfrError (msg : String)
  | indexError
  | assertionError
  deriving DecidableEq, Repr

/-- Width of the digest algorithm selected from a key by `_calc_rotkh`:
a fixed 256 for RSA keys, the curve's key size for EC keys. -/
def algorithmWidth : PublicKey → Nat
  | PublicKey.rsa _ => 256
  | PublicKey.ec k => k.key_size

/-- Embedding of `BaseConfigArea._calc_rotkh` (pfr.py lines 459-488): look up
the `ROTKH` register for its width, pick the algorithm width from the first
key, fail when it exceeds the register width, hash every key, fill 4 slots
(missing slots are `algorithm_width // 8` zero bytes), hash the joined slots
and pad the digest with trailing zeros to the register's byte width. -/
def calc_rotkh (H : HashFn) (regs : List PfrRegister) (keys : List PublicKey) :
    Except PfrErr Bytes :=
  match findReg regs "ROTKH" with
  | none => Except.error PfrErr.registerNotFound
  | some reg_rotkh =>
      let width := reg_rotkh.width
      match keys.head? with
      | none => Except.error PfrErr.indexError
      | some k0 =>
          let algorithm_width := algorithmWidth k0
          if algorithm_width > width then
            Except.error
              (PfrErr.pfrError "The ROTKH field is smaller than used algorithm width.")
          else
            let key_hashes := keys.map (fun k => calc_pub_key_hash H k algorithm_width)
            let data := (List.range 4).map
              (fun i => (key_hashes.get? i).getD (List.replicate (algorithm_width / 8) 0))
            Except.ok (ljustZero (H algorithm_width data.flatten) (width / 8))

/-- Name of the ROTKH-designated register (`BaseConfigArea.ROTKH_REGISTER`). -/
def ROTKH_REGISTER : String := "ROTKH"

/-- Seal marker bytes (`BaseConfigArea.MARK = b"SEAL"`). -/
def MARK : Bytes := [0x53, 0x45, 0x41, 0x4C]

/-- Total PFR record size (`BaseConfigArea.BINARY_SIZE`). -/
def BINARY_SIZE : Nat := 512

/-- ConfigArea state relevant to export/parse: the register set and the
schema-resolved seal start offset and seal count. -/
structure ConfigArea where
  registers : List PfrRegister
  seal_start : Nat
  seal_count : Nat

/-- Embedding of the `if keys:` block of `BaseConfigArea.export` (pfr.py lines
516-525): look up the ROTKH register (a `SPSDKRegsErrorRegisterNotFound` from
the lookup — also the one inside `_calc_rotkh` — is converted to
`SPSDKPfrRotkhIsNotPresent`), compute the digest and force-set it on the
register with `raw = true`; other errors propagate. -/
def rotkhStep (H : HashFn) (regs : List PfrRegister) (keys : List PublicKey) :
    Except PfrErr (List PfrRegister) :=
  if keys.isEmpty then Except.ok regs
  else
    match findReg regs ROTKH_REGISTER with
    | none => Except.error PfrErr.rotkhIsNotPresent
    | some rotkh_reg =>
        match calc_rotkh H regs keys with
        | Except.error PfrErr.registerNotFound => Except.error PfrErr.rotkhIsNotPresent
        | Except.error e => Except.error e
        | Except.ok rotkh_data =>
            match RegsRegister.set_value rotkh_reg rotkh_data true with
            | Except.error m => Except.error (PfrErr.pfrError m)
            | Except.ok r2 => Except.ok (replaceFirstReg regs ROTKH_REGISTER r2)

/-- Serialization of one register into the export buffer (pfr.py lines
528-542): a grouped register writes each sub-register at its own offset, an
ungrouped register writes its own span; a `reverse` register's bytes go out
unchanged, all others are passed through `change_endianism`. -/
def writeRegister (data : Bytes) (reg : PfrRegister) : Bytes :=
  if reg.sub_regs.isEmpty = false then
    reg.sub_regs.foldl
      (fun d grp_reg =>
        let val := if grp_reg.reverse then grp_reg.value
                   else change_endianism grp_reg.value
        setSlice d grp_reg.offset (grp_reg.offset + grp_reg.width / 8) val)
      data
  else
    let val := if reg.reverse then reg.value else change_endianism reg.value
    setSlice data reg.offset (reg.offset + reg.width / 8) val

/-- Embedding of `BaseConfigArea.export` (pfr.py lines 508-552): optional ROTKH
injection, zero-initialized 512-byte buffer, per-register serialization, the
optional seal write (`MARK * seal_count` at the seal offset, after all register
writes), and the final size assertion. -/
def exportArea (H : HashFn) (area : ConfigArea) (add_seal : Bool)
    (keys : List PublicKey) : Except PfrErr Bytes :=
  match rotkhStep H area.registers keys with
  | Except.error e => Except.error e
  | Except.ok regs =>
      let data0 : Bytes := List.replicate BINARY_SIZE 0
      let data1 := regs.foldl writeRegister data0
      let data2 :=
        if add_seal then
          setSlice data1 area.seal_start (area.seal_start + area.seal_count * 4)
            ((List.replicate area.seal_count MARK).flatten)
        else data1
      if data2.length = BINARY_SIZE then Except.ok data2
      else Except.error PfrErr.assertionError

/-- Embedding of `BaseConfigArea.parse` (pfr.py lines 554-561): for every
register, read its byte span from the input and raw-set
`change_endianism` of those bytes (`set_value(..., raw=True)` always succeeds,
so the update is the direct value replacement). -/
def parseArea (regs : List PfrRegister) (data : Bytes) : List PfrRegister :=
  regs.map (fun reg =>
    let value := getSlice data reg.offset (reg.offset + reg.width / 8)
    { reg with value := change_endianism value })

/-! ## Secure Binary v3.1 assembly tail (claim C7) -/

/-- Byte blocks entering the v3.1 assembly in `generate_secure_binary`
(elftosb.py lines 330-381): the exported header, the command block's running
digest, the exported certificate block and the command block bytes.  Their
construction lives in modules outside these sources and is irrelevant to the
signing self-check. -/
structure SB31Parts where
  header : Bytes
  final_hash : Bytes
  cert_block : Bytes
  commands_data : Bytes
  deriving DecidableEq, Repr

/-- Embedding of the assembly tail of `generate_secure_binary` (elftosb.py
lines 366-381): concatenate header, previous-block hash and certificate block;
sign exactly those bytes (`internal_backend.ecc_sign`, abstracted as `sign`);
`assert` that the signature verifies against the same bytes — a failing assert
aborts before `write_file` runs, modelled as the error branch — then append
signature and command block and write the result. -/
def generate_secure_binary (sign : Bytes → Bytes) (verify : Bytes → Bytes → Bool)
    (parts : SB31Parts) : Except String Bytes :=
  let final_data := parts.header
  let final_data := final_data ++ parts.final_hash
  let final_data := final_data ++ parts.cert_block
  let data_to_sign := final_data
  let signature := sign data_to_sign
  if verify signature data_to_sign then
    Except.ok (final_data ++ signature ++ parts.commands_data)
  else
    Except.error "AssertionError: ecc_verify of the produced signature failed"

/-! ## Theorems for claims C7, C8, C5 -/

/-- Claim C7: the v3.1 assembler re-verifies the fresh signature against
exactly the signed byte span — the header‖previous-hash‖certificate-block
concatenation, which is also the exact prefix of the container it would write —
and on verification failure it aborts without writing any container bytes. -/
theorem C7_sb31_self_check (sign : Bytes → Bytes) (verify : Bytes → Bytes → Bool)
    (p : SB31Parts) :
    (verify (sign ((p.header ++ p.final_hash) ++ p.cert_block))
        ((p.header ++ p.final_hash) ++ p.cert_block) = false →
      generate_secure_binary sign verify p
        = Except.error "AssertionError: ecc_verify of the produced signature failed")
    ∧ (verify (sign ((p.header ++ p.final_hash) ++ p.cert_block))
        ((p.header ++ p.final_hash) ++ p.cert_block) = true →
      generate_secure_binary sign verify p
        = Except.ok (((p.header ++ p.final_hash) ++ p.cert_block)
            ++ sign ((p.header ++ p.final_hash) ++ p.cert_block) ++ p.commands_data)) := by
  unfold generate_secure_binary
  constructor <;> intro h <;> simp only [h] <;> rfl

/-- Witness for C7: with a verifier that rejects, the assembler returns the
assertion error and thus never reaches the output write. -/
theorem C7_sb31_self_check_witness :
    generate_secure_binary (fun _ => [9]) (fun _ _ => false) ⟨[1], [2], [3], [4]⟩
      = Except.error "AssertionError: ecc_verify of the produced signature failed" :=
  (C7_sb31_self_check (fun _ => [9]) (fun _ _ => false) ⟨[1], [2], [3], [4]⟩).1 rfl

/-- Key digests of `truncHash` have the contractual `w / 8` length. -/
theorem truncHash_length (w : Nat) (d : Bytes) : (truncHash w d).length = w / 8 := by
  simp [truncHash]

/-- Helper: `findReg` finds the replacement after `replaceFirstReg` whenever
the name was present and the replacement carries the same name. -/
theorem findReg_replaceFirstReg (regs : List PfrRegister) (name : String)
    (r2 : PfrRegister) (h : (findReg regs name).isSome = true) (h2 : r2.name = name) :
    findReg (replaceFirstReg regs name r2) name = some r2 := by
  induction regs with
  | nil => simp [findReg] at h
  | cons r rest ih =>
      by_cases hr : r.name = name
      · simp [replaceFirstReg, hr, findReg, List.find?, h2]
      · simp only [replaceFirstReg, hr, if_false]
        have h' : (findReg rest name).isSome = true := by
          simpa [findReg, List.find?_cons, hr] using h
        simpa [findReg, List.find?_cons, hr] using ih h'

/-- Claim C8: exporting with a non-empty verification-key list on an area whose
register set lacks the ROTKH register fails with `SPSDKPfrRotkhIsNotPresent`
(never a silent skip); when the register is present and the digest computes,
the digest is force-set on the register with a raw write, which bypasses field
validation (no validity premise is needed below, and the witness uses a
register rejecting every value). -/
theorem C8_rotkh_presence (H : HashFn) (regs : List PfrRegister) (s c : Nat)
    (add_seal : Bool) (keys : List PublicKey) (hk : keys ≠ []) :
    (findReg regs ROTKH_REGISTER = none →
        exportArea H ⟨regs, s, c⟩ add_seal keys = Except.error PfrErr.rotkhIsNotPresent)
    ∧ (∀ r digest, findReg regs ROTKH_REGISTER = some r →
        calc_rotkh H regs keys = Except.ok digest →
        ∃ regs2, rotkhStep H regs keys = Except.ok regs2
          ∧ (findReg regs2 ROTKH_REGISTER).map (fun x => x.value) = some digest) := by
  have hke : keys.isEmpty = false := by
    cases keys with
    | nil => exact absurd rfl hk
    | cons a l => rfl
  constructor
  · intro hnone
    unfold exportArea rotkhStep
    simp [hke, hnone]
  · intro r digest hfind hcalc
    refine ⟨replaceFirstReg regs ROTKH_REGISTER { r with value := digest }, ?_, ?_⟩
    · unfold rotkhStep
      simp only [hke, Bool.false_eq_true, if_false, hfind, hcalc]
      rfl
    · rw [findReg_replaceFirstReg]
      · rfl
      · simp [hfind]
      · show r.name = ROTKH_REGISTER
        have := List.find?_some hfind
        simpa using this

/-- Witness for C8: a one-key export against an area without `ROTKH` raises
the not-present error, while an area whose `ROTKH` register rejects every
value (validation always false) still ends up holding the computed digest —
the raw write bypassed validation. -/
theorem C8_rotkh_presence_witness :
    (exportArea truncHash
        ⟨[{ name := "OTHER", offset := 0, width := 32, reverse := false,
            value := [0, 0, 0, 0], valid := fun _ => true, sub_regs := [] }], 0, 0⟩
        false [PublicKey.rsa ⟨1, 2⟩] = Except.error PfrErr.rotkhIsNotPresent)
    ∧ (∃ regs2,
        rotkhStep truncHash
          [{ name := "ROTKH", offset := 0, width := 256, reverse := false,
             value := List.replicate 32 0, valid := fun _ => false, sub_regs := [] }]
          [PublicKey.rsa ⟨1, 2⟩] = Except.ok regs2
        ∧ (findReg regs2 ROTKH_REGISTER).map (fun x => x.value)
            = some ([2, 1] ++ List.replicate 30 0)) := by
  constructor
  · exact (C8_rotkh_presence truncHash _ 0 0 false _ (by simp)).1 rfl
  · exact (C8_rotkh_presence truncHash _ 0 0 false _ (by simp)).2 _ _ rfl rfl

/-- Slot `i` of the ROTKH input block, as the claim words it: the hash of key
`i` at the first key's algorithm width, or `algorithm_width / 8` zero bytes
when fewer keys were given. -/
def slotHash (H : HashFn) (keys : List PublicKey) (k0 : PublicKey) (i : Nat) : Bytes :=
  match keys.get? i with
  | some k => calc_pub_key_hash H k (algorithmWidth k0)
  | none => List.replicate (algorithmWidth k0 / 8) 0

/-- Helper: the slot expression computed by `calc_rotkh` coincides with
`slotHash`. -/
theorem slotHash_eq (H : HashFn) (keys : List PublicKey) (k0 : PublicKey) (i : Nat) :
    ((keys.map (fun k => calc_pub_key_hash H k (algorithmWidth k0))).get? i).getD
        (List.replicate (algorithmWidth k0 / 8) 0)
      = slotHash H keys k0 i := by
  rw [List.get?_map, slotHash]
  cases keys.get? i <;> rfl

/-- Claim C5: for 1..4 keys the ROTKH value is the digest—at the first key's
algorithm width—of exactly four fixed-order slots (slot `i` holds the hash of
key `i`, or `algorithm_width / 8` zero bytes when absent), padded with trailing
zero bytes to the ROTKH register's byte width (hence always exactly that
width); and the computation fails with the field-too-narrow `SPSDKPfrError`
whenever the algorithm width exceeds the register width. -/
theorem C5_rotkh_structure (H : HashFn) (hH : ∀ w d, (H w d).length = w / 8)
    (regs : List PfrRegister) (rotkh_reg : PfrRegister)
    (hfind : findReg regs "ROTKH" = some rotkh_reg)
    (keys : List PublicKey) (k0 : PublicKey) (hk0 : keys.head? = some k0)
    (h4 : keys.length ≤ 4) :
    (algorithmWidth k0 ≤ rotkh_reg.width →
        calc_rotkh H regs keys
          = Except.ok
              ((H (algorithmWidth k0)
                  (slotHash H keys k0 0 ++ slotHash H keys k0 1
                    ++ slotHash H keys k0 2 ++ slotHash H keys k0 3))
                ++ List.replicate (rotkh_reg.width / 8 - algorithmWidth k0 / 8) 0)
        ∧ ∀ out, calc_rotkh H regs keys = Except.ok out →
            out.length = rotkh_reg.width / 8)
    ∧ (algorithmWidth k0 > rotkh_reg.width →
        calc_rotkh H regs keys
          = Except.error
              (PfrErr.pfrError "The ROTKH field is smaller than used algorithm width.")) := by
  have hjoin :
      ((List.range 4).map
          (fun i =>
            (((keys.map (fun k => calc_pub_key_hash H k (algorithmWidth k0))).get? i).getD
              (List.replicate (algorithmWidth k0 / 8) 0)))).flatten
        = slotHash H keys k0 0 ++ slotHash H keys k0 1
            ++ slotHash H keys k0 2 ++ slotHash H keys k0 3 := by
    have hr : List.range 4 = [0, 1, 2, 3] := by decide
    rw [hr]
    simp only [List.map_cons, List.map_nil, List.flatten, slotHash_eq]
    simp [List.append_assoc]
  constructor
  · intro hle
    have hnot : ¬ algorithmWidth k0 > rotkh_reg.width := not_lt.mpr hle
    have heq : calc_rotkh H regs keys
        = Except.ok
            ((H (algorithmWidth k0)
                (slotHash H keys k0 0 ++ slotHash H keys k0 1
                  ++ slotHash H keys k0 2 ++ slotHash H keys k0 3))
              ++ List.replicate (rotkh_reg.width / 8 - algorithmWidth k0 / 8) 0) := by
      unfold calc_rotkh
      rw [hfind, hk0]
      simp only [hnot, if_false]
      rw [hjoin]
      unfold ljustZero
      rw [hH]
    refine ⟨heq, ?_⟩
    intro out hout
    rw [heq] at hout
    cases hout
    have hdiv : algorithmWidth k0 / 8 ≤ rotkh_reg.width / 8 :=
      Nat.div_le_div_right hle
    simp [hH]
    omega
  · intro hgt
    unfold calc_rotkh
    rw [hfind, hk0]
    simp only [hgt, if_true]

/-- Witness for C5: a single 2048-style RSA key (e = 1, n = 2 for
computability) against a 256-bit-wide ROTKH register: the digest is the hash of
slot0‖zeros‖zeros‖zeros padded to 32 bytes, and it is exactly 32 bytes long. -/
theorem C5_rotkh_structure_witness :
    calc_rotkh truncHash
        [{ name := "ROTKH", offset := 0, width := 256, reverse := false,
           value := List.replicate 32 0, valid := fun _ => true, sub_regs := [] }]
        [PublicKey.rsa ⟨1, 2⟩]
      = Except.ok ([2, 1] ++ List.replicate 30 0)
    ∧ (([2, 1] ++ List.replicate 30 0 : Bytes)).length = 256 / 8 := by
  have h := (C5_rotkh_structure truncHash truncHash_length
      [{ name := "ROTKH", offset := 0, width := 256, reverse := false,
         value := List.replicate 32 0, valid := fun _ => true, sub_regs := [] }]
      { name := "ROTKH", offset := 0, width := 256, reverse := false,
        value := List.replicate 32 0, valid := fun _ => true, sub_regs := [] }
      rfl [PublicKey.rsa ⟨1, 2⟩] (PublicKey.rsa ⟨1, 2⟩) rfl (by decide)).1 (by decide)
  refine ⟨?_, by decide⟩
  rw [h.1]
  have : (truncHash (algorithmWidth (PublicKey.rsa ⟨1, 2⟩))
      (slotHash truncHash [PublicKey.rsa ⟨1, 2⟩] (PublicKey.rsa ⟨1, 2⟩) 0
        ++ slotHash truncHash [PublicKey.rsa ⟨1, 2⟩] (PublicKey.rsa ⟨1, 2⟩) 1
        ++ slotHash truncHash [PublicKey.rsa ⟨1, 2⟩] (PublicKey.rsa ⟨1, 2⟩) 2
        ++ slotHash truncHash [PublicKey.rsa ⟨1, 2⟩] (PublicKey.rsa ⟨1, 2⟩) 3))
      ++ List.replicate (256 / 8 - algorithmWidth (PublicKey.rsa ⟨1, 2⟩) / 8) 0
      = ([2, 1] ++ List.replicate 30 0 : Bytes) := by decide
  rw [this]

/-! ## set_config hook re-run (claim C4) -/

/-- Register as seen by the hook machinery of `set_config`: name, value and
the optional set-value hook attached to computed registers. -/
structure HookReg where
  name : String
  value : Bytes
  hook : Option (Bytes → Bytes)

/-- Modelled from the spec: running a register's set-value hook recomputes the
register's computed fields from its current value (spec 4.4, steps 2-3). -/
def applyHook (r : HookReg) : HookReg :=
  match r.hook with
  | some f => { r with value := f r.value }
  | none => r

/-- Modelled from the spec: `Registers.run_hooks` (utils/registers.py, not
under src/) re-runs the set-value hooks of every register except those named in
the exclusion list it receives (the caller in pfr.py names that argument
`exclude_hooks` and comments "Just update only configured registers"). -/
def run_hooks (regs : List HookReg) (exclude : List String) : List HookReg :=
  regs.map (fun r => if r.name ∈ exclude then r else applyHook r)

/-- Embedding of the raw=False tail of `BaseConfigArea.set_config` (pfr.py
lines 419-422): the exclusion list passed to `run_hooks` is the set difference
between all register names and the user's settings keys. -/
def set_config_run_hooks (regs : List HookReg) (settings_keys : List String) :
    List HookReg :=
  let exclude_hooks :=
    (regs.map (fun r => r.name)).filter (fun n => decide (n ∉ settings_keys))
  run_hooks regs exclude_hooks

/-- Claim C4 counterexample: register `A` carries a hook rewriting its value to
`[1]` and register `B` a hook rewriting to `[6]`; with user settings naming
exactly `A`, `set_config` re-runs the hook of the explicitly set `A`
(overwriting the user's `[0]` with `[1]`) and skips the unset `B` — the
opposite of the claim, under which `A` would stay `[0]` and `B` become `[6]`. -/
theorem C4_counterexample :
    (set_config_run_hooks
        [⟨"A", [0], some (fun _ => [1])⟩, ⟨"B", [5], some (fun _ => [6])⟩]
        ["A"]).map (fun r => r.value) = [[1], [5]]
    ∧ ([[1], [5]] : List Bytes) ≠ [[0], [6]] := by
  exact ⟨rfl, by decide⟩

/-- Claim C4 amended: after the user-supplied settings are applied with
raw=False, recompute hooks are re-run exactly for the registers whose names DO
appear in the user's settings keys (the complement is the exclusion list), so
an explicitly set register has its computed fields recomputed from the
user-supplied value while untouched registers keep their values. -/
theorem C4_hooks_on_configured (regs : List HookReg) (keys : List String) :
    set_config_run_hooks regs keys
      = regs.map (fun r => if r.name ∈ keys then applyHook r else r) := by
  unfold set_config_run_hooks run_hooks
  apply List.map_congr_left
  intro r hr
  by_cases hk : r.name ∈ keys
  · have hni : r.name ∉ (regs.map (fun r => r.name)).filter (fun n => decide (n ∉ keys)) := by
      simp [List.mem_filter, hk]
    rw [if_neg hni, if_pos hk]
  · have hni : r.name ∈ (regs.map (fun r => r.name)).filter (fun n => decide (n ∉ keys)) := by
      simp only [List.mem_filter, decide_eq_true_eq]
      exact ⟨List.mem_map_of_mem (fun r => r.name) hr, hk⟩
    rw [if_pos hni, if_neg hk]

/-! ## Byte-buffer lemmas for export/parse (claims C1, C6) -/

/-- Writing a value at offset `a` with a matching span, as `export` does for
every register write and the seal write. -/
def writeAt (data : Bytes) (a : Nat) (val : Bytes) : Bytes :=
  setSlice data a (a + val.length) val

theorem writeAt_eq (data : Bytes) (a : Nat) (val : Bytes)
    (h : a + val.length ≤ data.length) :
    writeAt data a val = data.take a ++ val ++ data.drop (a + val.length) := by
  unfold writeAt setSlice
  rw [max_eq_right (Nat.le_add_right a val.length),
    min_eq_left h,
    min_eq_left (le_trans (Nat.le_add_right a val.length) h)]

theorem writeAt_nil (data : Bytes) (a : Nat) : writeAt data a [] = data := by
  unfold writeAt setSlice
  simp [List.take_append_drop]

theorem length_writeAt (data : Bytes) (a : Nat) (val : Bytes)
    (h : a + val.length ≤ data.length) :
    (writeAt data a val).length = data.length := by
  rw [writeAt_eq data a val h]
  simp
  omega

theorem getSlice_writeAt_self (data : Bytes) (a : Nat) (val : Bytes)
    (h : a + val.length ≤ data.length) :
    getSlice (writeAt data a val) a (a + val.length) = val := by
  rw [writeAt_eq data a val h]
  unfold getSlice
  have ha : a ≤ data.length := le_trans (Nat.le_add_right a val.length) h
  rw [show a + val.length - a = val.length by omega]
  rw [List.drop_append_of_le_length (by simp; omega)]
  rw [List.drop_append_of_le_length (by rw [List.length_take]; omega)]
  have e0 : (data.take a).drop a = [] := by
    apply List.drop_eq_nil_of_le
    rw [List.length_take]
    omega
  rw [e0, List.nil_append]
  exact List.take_left val _

theorem getSlice_writeAt_left (data : Bytes) (a : Nat) (val : Bytes) (c u : Nat)
    (h : a + val.length ≤ data.length) (hc : c + u ≤ a) :
    getSlice (writeAt data a val) c (c + u) = getSlice data c (c + u) := by
  rw [writeAt_eq data a val h]
  unfold getSlice
  have ha : a ≤ data.length := le_trans (Nat.le_add_right a val.length) h
  rw [show c + u - c = u by omega]
  rw [List.drop_append_of_le_length (by simp; omega)]
  rw [List.take_append_of_le_length (by simp; omega)]
  rw [List.drop_append_of_le_length (by rw [List.length_take]; omega)]
  rw [List.take_append_of_le_length (by rw [List.length_drop, List.length_take]; omega)]
  rw [List.drop_take]
  rw [List.take_take]
  rw [min_eq_left (by omega)]

theorem getSlice_writeAt_right (data : Bytes) (a : Nat) (val : Bytes) (c u : Nat)
    (h : a + val.length ≤ data.length) (hc : a + val.length ≤ c) :
    getSlice (writeAt data a val) c (c + u) = getSlice data c (c + u) := by
  rw [writeAt_eq data a val h]
  unfold getSlice
  have ha : a ≤ data.length := le_trans (Nat.le_add_right a val.length) h
  have h1 : (data.take a ++ val).length = a + val.length := by
    simp [List.length_take]
    omega
  have e1 : List.drop (a + val.length)
      (data.take a ++ val ++ data.drop (a + val.length))
      = data.drop (a + val.length) := by
    rw [← h1, List.drop_left]
  have key : List.drop c (data.take a ++ val ++ data.drop (a + val.length))
      = List.drop c data := by
    calc List.drop c (data.take a ++ val ++ data.drop (a + val.length))
        = List.drop ((a + val.length) + (c - (a + val.length)))
            (data.take a ++ val ++ data.drop (a + val.length)) := by
          rw [show (a + val.length) + (c - (a + val.length)) = c by omega]
      _ = List.drop (c - (a + val.length))
            (List.drop (a + val.length)
              (data.take a ++ val ++ data.drop (a + val.length))) := by
          rw [List.drop_drop]
      _ = List.drop (c - (a + val.length)) (data.drop (a + val.length)) := by rw [e1]
      _ = List.drop ((a + val.length) + (c - (a + val.length))) data := by
          rw [List.drop_drop]
      _ = List.drop c data := by
          rw [show (a + val.length) + (c - (a + val.length)) = c by omega]
  rw [key]

/-- Byte-order transform preserves length. -/
theorem change_endianism_length : ∀ l : Bytes, (change_endianism l).length = l.length
  | [] => rfl
  | [_] => rfl
  | [_, _] => rfl
  | [_, _, _] => rfl
  | a :: b :: c :: d :: rest => by
      simp only [change_endianism, List.length_cons]
      rw [change_endianism_length rest]

/-- Byte-order transform is an involution: applying it twice restores the
input (the word reversal undoes itself, as does the short-span reversal). -/
theorem change_endianism_involutive :
    ∀ l : Bytes, change_endianism (change_endianism l) = l
  | [] => rfl
  | [_] => rfl
  | [_, _] => rfl
  | [_, _, _] => rfl
  | a :: b :: c :: d :: rest => by
      simp only [change_endianism]
      rw [change_endianism_involutive rest]

/-- Byte-order transform distributes over a leading 4-byte word. -/
theorem change_endianism_append_four (w rest : Bytes) (h : w.length = 4) :
    change_endianism (w ++ rest) = change_endianism w ++ change_endianism rest := by
  match w, h with
  | [a, b, c, d], _ => rfl

/-- Byte-order transform distributes over a flattening of 4-byte words. -/
theorem change_endianism_flatten_four (ls : List Bytes)
    (h : ∀ w ∈ ls, w.length = 4) :
    change_endianism ls.flatten = (ls.map change_endianism).flatten := by
  induction ls with
  | nil => rfl
  | cons w rest ih =>
      rw [List.flatten_cons, List.map_cons, List.flatten_cons]
      rw [change_endianism_append_four w rest.flatten (h w (List.mem_cons_self w rest))]
      rw [ih (fun x hx => h x (List.mem_cons_of_mem w hx))]

/-- Two adjacent writes fuse into one write of the concatenation. -/
theorem writeAt_writeAt (data : Bytes) (a : Nat) (v w : Bytes)
    (h : a + v.length + w.length ≤ data.length) :
    writeAt (writeAt data a v) (a + v.length) w = writeAt data a (v ++ w) := by
  have hv : a + v.length ≤ data.length := by omega
  have hlen : (writeAt data a v).length = data.length := length_writeAt data a v hv
  rw [writeAt_eq data a v hv]
  rw [writeAt_eq _ (a + v.length) w (by
    rw [show data.take a ++ v ++ data.drop (a + v.length) = writeAt data a v from
      (writeAt_eq data a v hv).symm, hlen]
    omega)]
  rw [writeAt_eq data a (v ++ w) (by rw [List.length_append]; omega)]
  have ha : a ≤ data.length := by omega
  have h1 : (data.take a ++ v).length = a + v.length := by
    simp [List.length_take]
    omega
  have htake : (data.take a ++ v ++ data.drop (a + v.length)).take (a + v.length)
      = data.take a ++ v := by
    rw [← h1]
    exact List.take_left _ _
  have hdrop : (data.take a ++ v ++ data.drop (a + v.length)).drop (a + v.length + w.length)
      = data.drop (a + (v ++ w).length) := by
    calc (data.take a ++ v ++ data.drop (a + v.length)).drop (a + v.length + w.length)
        = ((data.take a ++ v ++ data.drop (a + v.length)).drop (a + v.length)).drop
            w.length := by
          rw [List.drop_drop]
      _ = (data.drop (a + v.length)).drop w.length := by
          rw [← h1, List.drop_left]
      _ = data.drop (a + (v ++ w).length) := by
          rw [List.drop_drop, List.length_append]
          congr 1
          omega
  rw [htake, hdrop, List.append_assoc (data.take a) v]

/-- Bytes a sub-register contributes to the export buffer. -/
def wireBytesSub (sr : SubRegister) : Bytes :=
  if sr.reverse then sr.value else change_endianism sr.value

/-- Bytes a register contributes to the export buffer: for a grouped register,
the concatenation of its sub-registers' wire bytes (they are contiguous under
`regWF`); otherwise its own transformed value. -/
def wireBytes (r : PfrRegister) : Bytes :=
  if r.sub_regs.isEmpty = false then (r.sub_regs.map wireBytesSub).flatten
  else if r.reverse then r.value else change_endianism r.value

/-- Sub-registers are well-formed at base offset `off` when they form a
contiguous run of 4-byte words (the export loop comment: "rewriting 4B at the
time") with value bytes matching their width. -/
def subsContig : Nat → List SubRegister → Bool
  | _, [] => true
  | off, sr :: rest =>
      decide (sr.offset = off) && decide (sr.width = 32)
        && decide (sr.value.length = 4) && subsContig (off + 4) rest

/-- Schema well-formedness of one register: value bytes match the byte width,
the span fits the 512-byte record, and a grouped register's sub-registers tile
its span with 4-byte words. -/
def regWF (r : PfrRegister) : Bool :=
  if r.sub_regs.isEmpty then
    decide (r.value.length = r.width / 8)
      && decide (r.offset + r.width / 8 ≤ BINARY_SIZE)
  else
    subsContig r.offset r.sub_regs
      && decide (r.width / 8 = 4 * r.sub_regs.length)
      && decide (r.offset + r.width / 8 ≤ BINARY_SIZE)

theorem wireBytesSub_length (sr : SubRegister) (h : sr.value.length = 4) :
    (wireBytesSub sr).length = 4 := by
  unfold wireBytesSub
  split
  · exact h
  · rw [change_endianism_length]
    exact h

theorem subsContig_flatten_length (subs : List SubRegister) (off : Nat)
    (h : subsContig off subs = true) :
    ((subs.map wireBytesSub).flatten).length = 4 * subs.length := by
  induction subs generalizing off with
  | nil => rfl
  | cons sr rest ih =>
      obtain ⟨⟨⟨_, _⟩, hvl⟩, hrest⟩ :
          ((sr.offset = off ∧ sr.width = 32) ∧ sr.value.length = 4)
            ∧ subsContig (off + 4) rest = true := by
        simpa [subsContig, Bool.and_eq_true, decide_eq_true_eq] using h
      rw [List.map_cons, List.flatten_cons, List.length_append,
        wireBytesSub_length sr hvl, ih (off + 4) hrest, List.length_cons]
      ring

theorem foldl_subs_eq_writeAt (subs : List SubRegister) (off : Nat) (data : Bytes)
    (h : subsContig off subs = true) (hle : off + 4 * subs.length ≤ data.length) :
    subs.foldl
      (fun d grp_reg =>
        setSlice d grp_reg.offset (grp_reg.offset + grp_reg.width / 8)
          (if grp_reg.reverse then grp_reg.value else change_endianism grp_reg.value))
      data
      = writeAt data off (subs.map wireBytesSub).flatten := by
  induction subs generalizing off data with
  | nil => simp [writeAt_nil]
  | cons sr rest ih =>
      obtain ⟨⟨⟨hoff, hw⟩, hvl⟩, hrest⟩ :
          ((sr.offset = off ∧ sr.width = 32) ∧ sr.value.length = 4)
            ∧ subsContig (off + 4) rest = true := by
        simpa [subsContig, Bool.and_eq_true, decide_eq_true_eq] using h
      have hvlen : (wireBytesSub sr).length = 4 := wireBytesSub_length sr hvl
      have hstep :
          setSlice data sr.offset (sr.offset + sr.width / 8)
              (if sr.reverse then sr.value else change_endianism sr.value)
            = writeAt data off (wireBytesSub sr) := by
        unfold writeAt
        rw [hoff, hw, hvlen, wireBytesSub]
      rw [List.foldl_cons, hstep]
      have hlen4 : off + 4 ≤ data.length := by
        rw [List.length_cons] at hle
        omega
      have hlen' : (writeAt data off (wireBytesSub sr)).length = data.length :=
        length_writeAt data off (wireBytesSub sr) (by omega)
      rw [ih (off + 4) (writeAt data off (wireBytesSub sr)) hrest
        (by rw [hlen']; rw [List.length_cons] at hle; omega)]
      rw [show off + 4 = off + (wireBytesSub sr).length by rw [hvlen]]
      rw [writeAt_writeAt data off (wireBytesSub sr) ((rest.map wireBytesSub).flatten)
        (by
          rw [hvlen, subsContig_flatten_length rest (off + 4) hrest]
          rw [List.length_cons] at hle
          omega)]
      rw [List.map_cons, List.flatten_cons]

theorem regWF_bound (r : PfrRegister) (h : regWF r = true) :
    r.offset + r.width / 8 ≤ BINARY_SIZE := by
  unfold regWF at h
  split at h <;> simp only [Bool.and_eq_true, decide_eq_true_eq] at h <;> tauto

theorem wireBytes_length (r : PfrRegister) (h : regWF r = true) :
    (wireBytes r).length = r.width / 8 := by
  unfold wireBytes regWF at *
  by_cases hg : r.sub_regs.isEmpty
  · simp only [hg, if_true, Bool.and_eq_true, decide_eq_true_eq] at h
    simp only [hg, Bool.true_eq_false, if_false]
    split
    · exact h.1.symm ▸ rfl
    · rw [change_endianism_length]
      exact h.1
  · have hg' : r.sub_regs.isEmpty = false := by
      cases hge : r.sub_regs.isEmpty
      · rfl
      · exact absurd hge hg
    rw [hg'] at h
    simp only [Bool.false_eq_true, if_false, Bool.and_eq_true, decide_eq_true_eq] at h
    simp only [hg', if_true]
    rw [subsContig_flatten_length r.sub_regs r.offset h.1.1, h.1.2]

theorem writeRegister_eq (data : Bytes) (r : PfrRegister) (hwf : regWF r = true)
    (hle : r.offset + r.width / 8 ≤ data.length) :
    writeRegister data r = writeAt data r.offset (wireBytes r) := by
  unfold writeRegister wireBytes
  by_cases hg : r.sub_regs.isEmpty
  · have hg' : (r.sub_regs.isEmpty = false) = False := by simp [hg]
    simp only [hg', if_false]
    unfold regWF at hwf
    simp only [hg, if_true, Bool.and_eq_true, decide_eq_true_eq] at hwf
    have hvlen : (if r.reverse then r.value else change_endianism r.value).length
        = r.width / 8 := by
      split
      · exact hwf.1
      · rw [change_endianism_length]
        exact hwf.1
    unfold writeAt
    rw [hvlen]
  · have hg' : r.sub_regs.isEmpty = false := by
      cases hge : r.sub_regs.isEmpty
      · rfl
      · exact absurd hge hg
    simp only [hg', if_true]
    unfold regWF at hwf
    rw [hg'] at hwf
    simp only [Bool.false_eq_true, if_false, Bool.and_eq_true, decide_eq_true_eq] at hwf
    exact foldl_subs_eq_writeAt r.sub_regs r.offset data hwf.1.1
      (by rw [← hwf.1.2]; exact hle)

/-- Pairwise span disjointness of a register list (each register's span is
disjoint from the spans of all later registers). -/
def disjointAll : List PfrRegister → Bool
  | [] => true
  | r :: rest =>
      rest.all (fun x =>
        decide (r.offset + r.width / 8 ≤ x.offset)
          || decide (x.offset + x.width / 8 ≤ r.offset))
        && disjointAll rest

theorem length_foldl_writeRegister (regs : List PfrRegister) (data : Bytes)
    (h : ∀ r ∈ regs, regWF r = true) (hlen : data.length = BINARY_SIZE) :
    (regs.foldl writeRegister data).length = BINARY_SIZE := by
  induction regs generalizing data with
  | nil => simpa using hlen
  | cons x rest ih =>
      have hx : regWF x = true := h x (List.mem_cons_self x rest)
      have hb : x.offset + x.width / 8 ≤ data.length := by
        rw [hlen]
        exact regWF_bound x hx
      rw [List.foldl_cons, writeRegister_eq data x hx hb]
      exact ih (writeAt data x.offset (wireBytes x))
        (fun r hr => h r (List.mem_cons_of_mem x hr))
        (by
          rw [length_writeAt data x.offset (wireBytes x)
            (by rw [wireBytes_length x hx]; exact hb)]
          exact hlen)

theorem getSlice_foldl_frame (regs : List PfrRegister) (data : Bytes) (c u : Nat)
    (h : ∀ r ∈ regs, regWF r = true) (hlen : data.length = BINARY_SIZE)
    (hdisj : ∀ r ∈ regs, c + u ≤ r.offset ∨ r.offset + r.width / 8 ≤ c) :
    getSlice (regs.foldl writeRegister data) c (c + u) = getSlice data c (c + u) := by
  induction regs generalizing data with
  | nil => rfl
  | cons x rest ih =>
      have hx : regWF x = true := h x (List.mem_cons_self x rest)
      have hb : x.offset + x.width / 8 ≤ data.length := by
        rw [hlen]
        exact regWF_bound x hx
      have hwb : x.offset + (wireBytes x).length ≤ data.length := by
        rw [wireBytes_length x hx]
        exact hb
      have hlen' : (writeAt data x.offset (wireBytes x)).length = BINARY_SIZE := by
        rw [length_writeAt data x.offset (wireBytes x) hwb]
        exact hlen
      rw [List.foldl_cons, writeRegister_eq data x hx hb]
      rw [ih (writeAt data x.offset (wireBytes x))
        (fun r hr => h r (List.mem_cons_of_mem x hr)) hlen'
        (fun r hr => hdisj r (List.mem_cons_of_mem x hr))]
      cases hdisj x (List.mem_cons_self x rest) with
      | inl hl => exact getSlice_writeAt_left data x.offset (wireBytes x) c u hwb hl
      | inr hr =>
          apply getSlice_writeAt_right data x.offset (wireBytes x) c u hwb
          rw [wireBytes_length x hx]
          exact hr

theorem getSlice_foldl_readback (regs : List PfrRegister) (data : Bytes)
    (r : PfrRegister) (hr : r ∈ regs) (h : ∀ x ∈ regs, regWF x = true)
    (hlen : data.length = BINARY_SIZE) (hdisj : disjointAll regs = true) :
    getSlice (regs.foldl writeRegister data) r.offset (r.offset + r.width / 8)
      = wireBytes r := by
  induction regs generalizing data with
  | nil => exact absurd hr (List.not_mem_nil r)
  | cons x rest ih =>
      obtain ⟨hall, hrest⟩ :
          (∀ y ∈ rest,
              x.offset + x.width / 8 ≤ y.offset ∨ y.offset + y.width / 8 ≤ x.offset)
            ∧ disjointAll rest = true := by
        simpa [disjointAll, Bool.and_eq_true, List.all_eq_true, decide_eq_true_eq]
          using hdisj
      have hx : regWF x = true := h x (List.mem_cons_self x rest)
      have hb : x.offset + x.width / 8 ≤ data.length := by
        rw [hlen]
        exact regWF_bound x hx
      have hwb : x.offset + (wireBytes x).length ≤ data.length := by
        rw [wireBytes_length x hx]
        exact hb
      have hlen' : (writeAt data x.offset (wireBytes x)).length = BINARY_SIZE := by
        rw [length_writeAt data x.offset (wireBytes x) hwb]
        exact hlen
      rw [List.foldl_cons, writeRegister_eq data x hx hb]
      rcases List.mem_cons.mp hr with hxr | hmem
      · subst hxr
        rw [getSlice_foldl_frame rest (writeAt data r.offset (wireBytes r))
          r.offset (r.width / 8)
          (fun y hy => h y (List.mem_cons_of_mem r hy)) hlen'
          (fun y hy => hall y hy)]
        rw [show r.offset + r.width / 8
            = r.offset + (wireBytes r).length by rw [wireBytes_length r hx]]
        exact getSlice_writeAt_self data r.offset (wireBytes r) hwb
      · exact ih (writeAt data x.offset (wireBytes x)) hmem
          (fun y hy => h y (List.mem_cons_of_mem x hy)) hlen' hrest

/-- Length of the seal bytes `MARK * seal_count`. -/
theorem seal_bytes_length (c : Nat) :
    ((List.replicate c MARK).flatten).length = c * 4 := by
  induction c with
  | zero => rfl
  | succ n ih =>
      rw [List.replicate_succ, List.flatten_cons, List.length_append, ih]
      show MARK.length + n * 4 = (n + 1) * 4
      rw [show MARK.length = 4 from rfl]
      ring

/-- Claim C6: whenever the optional ROTKH step succeeds (in particular always
when no verification keys are passed) and the register schema is well-formed,
`export` with `add_seal = true` succeeds with exactly `BINARY_SIZE` (512)
bytes, and the byte span at the schema-declared seal offset holds the 4-byte
marker repeated `seal_count` times, regardless of which registers were
configured — the seal write happens after all register writes and overwrites
any register occupying that span. -/
theorem C6_export_seal (H : HashFn) (area : ConfigArea) (keys : List PublicKey)
    (regs2 : List PfrRegister)
    (hstep : rotkhStep H area.registers keys = Except.ok regs2)
    (hwf : ∀ r ∈ regs2, regWF r = true)
    (hseal : area.seal_start + area.seal_count * 4 ≤ BINARY_SIZE) :
    ∃ data, exportArea H area true keys = Except.ok data
      ∧ data.length = BINARY_SIZE
      ∧ getSlice data area.seal_start (area.seal_start + area.seal_count * 4)
          = (List.replicate area.seal_count MARK).flatten := by
  have hlen1 : (regs2.foldl writeRegister (List.replicate BINARY_SIZE 0)).length
      = BINARY_SIZE :=
    length_foldl_writeRegister regs2 (List.replicate BINARY_SIZE 0) hwf (by simp)
  have hslen : ((List.replicate area.seal_count MARK).flatten).length
      = area.seal_count * 4 := seal_bytes_length area.seal_count
  have hspan : area.seal_start + area.seal_count * 4
      = area.seal_start + ((List.replicate area.seal_count MARK).flatten).length := by
    rw [hslen]
  have hbound : area.seal_start
        + ((List.replicate area.seal_count MARK).flatten).length
      ≤ (regs2.foldl writeRegister (List.replicate BINARY_SIZE 0)).length := by
    rw [hslen, hlen1]
    exact hseal
  have hd2 : setSlice (regs2.foldl writeRegister (List.replicate BINARY_SIZE 0))
        area.seal_start (area.seal_start + area.seal_count * 4)
        ((List.replicate area.seal_count MARK).flatten)
      = writeAt (regs2.foldl writeRegister (List.replicate BINARY_SIZE 0))
          area.seal_start ((List.replicate area.seal_count MARK).flatten) := by
    rw [hspan]
    rfl
  have hd2len : (setSlice (regs2.foldl writeRegister (List.replicate BINARY_SIZE 0))
        area.seal_start (area.seal_start + area.seal_count * 4)
        ((List.replicate area.seal_count MARK).flatten)).length = BINARY_SIZE := by
    rw [hd2, length_writeAt _ _ _ hbound, hlen1]
  refine ⟨setSlice (regs2.foldl writeRegister (List.replicate BINARY_SIZE 0))
      area.seal_start (area.seal_start + area.seal_count * 4)
      ((List.replicate area.seal_count MARK).flatten), ?_, hd2len, ?_⟩
  · have e1 : exportArea H area true keys
        = (if (setSlice (regs2.foldl writeRegister (List.replicate BINARY_SIZE 0))
              area.seal_start (area.seal_start + area.seal_count * 4)
              ((List.replicate area.seal_count MARK).flatten)).length = BINARY_SIZE
           then Except.ok (setSlice
              (regs2.foldl writeRegister (List.replicate BINARY_SIZE 0))
              area.seal_start (area.seal_start + area.seal_count * 4)
              ((List.replicate area.seal_count MARK).flatten))
           else Except.error PfrErr.assertionError) := by
      unfold exportArea
      rw [hstep]
      rfl
    rw [e1, if_pos hd2len]
  · rw [hd2, hspan]
    exact getSlice_writeAt_self _ _ _ hbound

/-- Witness for C6: a one-register area sealed with two marker words. -/
theorem C6_export_seal_witness :
    ∃ data, exportArea truncHash
        ⟨[{ name := "CFG", offset := 0, width := 32, reverse := false,
            value := [1, 2, 3, 4], valid := fun _ => true, sub_regs := [] }], 8, 2⟩
        true [] = Except.ok data
      ∧ data.length = BINARY_SIZE
      ∧ getSlice data 8 (8 + 2 * 4) = (List.replicate 2 MARK).flatten :=
  C6_export_seal truncHash
    ⟨[{ name := "CFG", offset := 0, width := 32, reverse := false,
        value := [1, 2, 3, 4], valid := fun _ => true, sub_regs := [] }], 8, 2⟩
    [] _ rfl (by decide) (by decide)

/-- Logical value of a register: its own value bytes, or for a grouped
register the concatenation of its sub-registers' values. -/
def flatValue (r : PfrRegister) : Bytes :=
  if r.sub_regs.isEmpty then r.value
  else (r.sub_regs.map (fun sr => sr.value)).flatten

/-- True when neither the register nor any of its sub-registers carries the
byte-order `reverse` flag. -/
def noReverse (r : PfrRegister) : Bool :=
  if r.sub_regs.isEmpty then !r.reverse
  else r.sub_regs.all (fun sr => !sr.reverse)

theorem subsContig_mem_len (subs : List SubRegister) (off : Nat)
    (h : subsContig off subs = true) :
    ∀ sr ∈ subs, sr.value.length = 4 := by
  induction subs generalizing off with
  | nil => intro sr hsr; exact absurd hsr (List.not_mem_nil sr)
  | cons x rest ih =>
      obtain ⟨⟨⟨_, _⟩, hvl⟩, hrest⟩ :
          ((x.offset = off ∧ x.width = 32) ∧ x.value.length = 4)
            ∧ subsContig (off + 4) rest = true := by
        simpa [subsContig, Bool.and_eq_true, decide_eq_true_eq] using h
      intro sr hsr
      rcases List.mem_cons.mp hsr with he | hm
      · rw [he]; exact hvl
      · exact ih (off + 4) hrest sr hm

/-- Undoing the byte-order transform on a register's wire bytes restores its
logical value, provided no reverse flag is set. -/
theorem ce_wireBytes (r : PfrRegister) (hwf : regWF r = true)
    (hnr : noReverse r = true) :
    change_endianism (wireBytes r) = flatValue r := by
  by_cases hg : r.sub_regs.isEmpty
  · unfold noReverse at hnr
    unfold wireBytes flatValue
    simp only [hg, Bool.true_eq_false, if_false, eq_self_iff_true, if_true] at hnr ⊢
    have hrev : r.reverse = false := by simpa using hnr
    rw [hrev]
    simp only [Bool.false_eq_true, if_false]
    exact change_endianism_involutive r.value
  · have hg' : r.sub_regs.isEmpty = false := by
      cases hge : r.sub_regs.isEmpty
      · rfl
      · exact absurd hge hg
    unfold noReverse at hnr
    unfold wireBytes flatValue
    simp only [hg', Bool.false_eq_true, if_false, eq_self_iff_true, if_true] at hnr ⊢
    unfold regWF at hwf
    rw [hg'] at hwf
    simp only [Bool.false_eq_true, if_false, Bool.and_eq_true, decide_eq_true_eq] at hwf
    have hvals : ∀ sr ∈ r.sub_regs, sr.value.length = 4 :=
      subsContig_mem_len r.sub_regs r.offset hwf.1.1
    have hmap : r.sub_regs.map wireBytesSub
        = (r.sub_regs.map (fun sr => sr.value)).map change_endianism := by
      rw [List.map_map]
      apply List.map_congr_left
      intro sr hsr
      have hrev : sr.reverse = false := by
        have := List.all_eq_true.mp hnr sr hsr
        simpa using this
      simp [wireBytesSub, hrev]
    rw [hmap]
    rw [change_endianism_flatten_four ((r.sub_regs.map (fun sr => sr.value)).map
        change_endianism)
      (by
        intro w hw
        rcases List.mem_map.mp hw with ⟨v, hv, hve⟩
        rcases List.mem_map.mp hv with ⟨sr, hsr, hsv⟩
        rw [← hve, change_endianism_length, ← hsv]
        exact hvals sr hsr)]
    rw [List.map_map]
    have : (r.sub_regs.map (fun sr => sr.value)).map
        (change_endianism ∘ change_endianism)
        = r.sub_regs.map (fun sr => sr.value) := by
      rw [show (r.sub_regs.map (fun sr => sr.value)).map
            (change_endianism ∘ change_endianism)
          = (r.sub_regs.map (fun sr => sr.value)).map id from
        List.map_congr_left (fun v _ => change_endianism_involutive v)]
      exact List.map_id _
    rw [this]

/-- Claim C1 amended: for every well-formed area with pairwise-disjoint
register spans — areas mixing reverse and non-reverse registers included —
`parse (export (config))` (no seal, no keys) sets each register's value to the
byte-order transform of the bytes `export` wrote for it; for every register
whose reverse flag is unset (including grouped registers with non-reverse
sub-registers, whose whole-span transform in `parse` coincides with the
per-sub-register transform in `export`) this reproduces the original logical
value bit-for-bit, while a register with the reverse flag set — whose bytes
`export` wrote unchanged — reads back as the byte-order transform of its
original value instead. -/
theorem C1_roundtrip (H : HashFn) (area : ConfigArea)
    (hwf : ∀ r ∈ area.registers, regWF r = true)
    (hdisj : disjointAll area.registers = true) :
    ∃ data, exportArea H area false [] = Except.ok data
      ∧ (parseArea area.registers data).map (fun r => r.value)
          = area.registers.map (fun r =>
              if noReverse r then flatValue r
              else change_endianism (wireBytes r))
      ∧ ∀ r ∈ area.registers, r.reverse = true → r.sub_regs.isEmpty = true →
          change_endianism (wireBytes r) = change_endianism r.value := by
  have hlen1 : (area.registers.foldl writeRegister
      (List.replicate BINARY_SIZE 0)).length = BINARY_SIZE :=
    length_foldl_writeRegister area.registers (List.replicate BINARY_SIZE 0) hwf (by simp)
  have hexp : exportArea H area false []
      = Except.ok (area.registers.foldl writeRegister
          (List.replicate BINARY_SIZE 0)) := by
    have e1 : exportArea H area false []
        = (if (area.registers.foldl writeRegister
              (List.replicate BINARY_SIZE 0)).length = BINARY_SIZE
           then Except.ok (area.registers.foldl writeRegister
              (List.replicate BINARY_SIZE 0))
           else Except.error PfrErr.assertionError) := rfl
    rw [e1, if_pos hlen1]
  refine ⟨area.registers.foldl writeRegister (List.replicate BINARY_SIZE 0),
    hexp, ?_, ?_⟩
  · unfold parseArea
    rw [List.map_map]
    apply List.map_congr_left
    intro r hr
    show change_endianism (getSlice
        (area.registers.foldl writeRegister (List.replicate BINARY_SIZE 0))
        r.offset (r.offset + r.width / 8))
      = if noReverse r then flatValue r else change_endianism (wireBytes r)
    rw [getSlice_foldl_readback area.registers (List.replicate BINARY_SIZE 0) r hr hwf
      (by simp) hdisj]
    by_cases hnr : noReverse r = true
    · rw [if_pos hnr]
      exact ce_wireBytes r (hwf r hr) hnr
    · rw [if_neg hnr]
  · intro r hr hrev hemp
    have hwire : wireBytes r = r.value := by
      unfold wireBytes
      rw [hemp, hrev]
      simp
    rw [hwire]

/-- Register set for the C1 witness: an ungrouped non-reverse register, a
grouped register with two non-reverse 4-byte sub-registers, and a
reverse-flagged register. -/
def C1mixedRegs : List PfrRegister :=
  [{ name := "CFG", offset := 0, width := 32, reverse := false,
     value := [1, 2, 3, 4], valid := fun _ => true, sub_regs := [] },
   { name := "GRP", offset := 8, width := 64, reverse := false,
     value := [], valid := fun _ => true,
     sub_regs := [⟨"GRP0", 8, 32, false, [5, 6, 7, 8]⟩,
       ⟨"GRP1", 12, 32, false, [9, 10, 11, 12]⟩] },
   { name := "REV", offset := 24, width := 32, reverse := true,
     value := [13, 14, 15, 16], valid := fun _ => true, sub_regs := [] }]

/-- Witness for C1: on the mixed area the non-reverse registers (grouped one
included) round-trip bit-for-bit and the reverse register reads back
byte-order-transformed. -/
theorem C1_roundtrip_witness :
    ∃ data, exportArea truncHash ⟨C1mixedRegs, 0, 0⟩ false [] = Except.ok data
      ∧ (parseArea C1mixedRegs data).map (fun r => r.value)
          = C1mixedRegs.map (fun r =>
              if noReverse r then flatValue r
              else change_endianism (wireBytes r))
      ∧ ∀ r ∈ C1mixedRegs, r.reverse = true → r.sub_regs.isEmpty = true →
          change_endianism (wireBytes r) = change_endianism r.value :=
  C1_roundtrip truncHash ⟨C1mixedRegs, 0, 0⟩ (by decide) (by decide)

set_option maxRecDepth 4000 in
/-- Claim C1 counterexample: a register with the reverse flag set does NOT
round-trip: `export` writes its bytes unchanged but `parse` still applies the
byte-order transform, so `[1, 2, 3, 4]` reads back as `[4, 3, 2, 1]`. -/
theorem C1_counterexample :
    exportArea truncHash
        ⟨[{ name := "REV", offset := 0, width := 32, reverse := true,
            value := [1, 2, 3, 4], valid := fun _ => true, sub_regs := [] }], 0, 0⟩
        false []
      = Except.ok ([1, 2, 3, 4] ++ List.replicate 508 0)
    ∧ (parseArea
        [{ name := "REV", offset := 0, width := 32, reverse := true,
           value := [1, 2, 3, 4], valid := fun _ => true, sub_regs := [] }]
        ([1, 2, 3, 4] ++ List.replicate 508 0)).map (fun r => r.value)
      = [[4, 3, 2, 1]]
    ∧ ([[4, 3, 2, 1]] : List Bytes) ≠ [[1, 2, 3, 4]] :=
  ⟨rfl, rfl, by decide⟩

end Spsdk
